import Mathlib

/-!
Verification of the voxel-tiler core: a shallow embedding of the voxel
store, mesher and exporter code, with theorems settling the frozen claims.

Machine integers are modelled as naturals with explicit moduli: the weight
type W is a natural bounded by a parameter wmax (its W::MAX), and the color
pool type C is a natural reduced modulo a parameter m (2 to the bit width of
C), so that the wrapping additions and multiplications of the source are
explicit. Coordinates (type parameter P of the source) are integers; the
cast from P to usize that the dense stores perform is the two-adic wrap
usizeCast. Resolutions, compared only for exact equality by the source, are
modelled as rationals.
-/

namespace VoxelTiler

/-- RGB color record: embedding of Color-of-C, a three-channel vector of an
unsigned machine integer type C. Channel arithmetic in the source wraps
modulo the size of C, which the operations below take as a parameter m. -/
structure Color3 where
  r : Nat
  g : Nat
  b : Nat
deriving DecidableEq, Repr

/-- Componentwise wrapping addition of colors, embedding the AddAssign of
VecX over a machine integer of modulus m. -/
def colorAdd (m : Nat) (a c : Color3) : Color3 :=
  ⟨(a.r + c.r) % m, (a.g + c.g) % m, (a.b + c.b) % m⟩

/-- Componentwise wrapping multiplication by a scalar splat, embedding
color-times-Color::from(w) of the source with modulus m. -/
def colorScale (m : Nat) (c : Color3) (k : Nat) : Color3 :=
  ⟨(c.r * k) % m, (c.g * k) % m, (c.b * k) % m⟩

/-- Componentwise integer division of a color by a weight, embedding
color / Color::from(weight) used by to_points. -/
def colorDivW (c : Color3) (w : Nat) : Color3 :=
  ⟨c.r / w, c.g / w, c.b / w⟩

/-- Voxel record of the source: a running color sum and a weight. -/
structure Voxel where
  color : Color3
  weight : Nat
deriving DecidableEq, Repr

/-- Voxel::new of the source: a fresh voxel with weight one. -/
def Voxel.ofColor (c : Color3) : Voxel :=
  ⟨c, 1⟩

/-- Embedding of W::checked_add for a weight type whose maximum is wmax. -/
def checkedAdd (wmax a b : Nat) : Option Nat :=
  if a + b ≤ wmax then some (a + b) else none

/-- Embedding of PrivateVoxelCollectionMethod::add_color_with_weight_check
(collection.rs): merge a new voxel v into a current voxel cur with the
saturating weighted-sum scheme. The cast of the weight into the color type
C is the reduction modulo m. -/
def add_color_with_weight_check (wmax m : Nat) (cur v : Voxel) : Voxel :=
  if cur.weight = wmax then cur
  else if (checkedAdd wmax cur.weight v.weight).isNone then
    let wfit := wmax - cur.weight
    { weight := cur.weight + wfit
      color := colorAdd m cur.color (colorScale m v.color (wfit % m)) }
  else
    { weight := cur.weight + v.weight
      color := colorAdd m cur.color (colorScale m v.color (v.weight % m)) }

/-- Reducing the scalar before a wrapping scale does not change the
result. -/
theorem colorScale_mod (m : Nat) (c : Color3) (k : Nat) :
    colorScale m c (k % m) = colorScale m c k := by
  simp [colorScale, Nat.mul_mod_mod]

/-- C1: merging a new voxel into a current one follows the saturating
weighted-sum scheme: if the current weight is W::MAX nothing changes; else
if the weight sum overflows W, the weight becomes W::MAX and the color
gains c_new times (W::MAX minus w_cur); otherwise the weight becomes the
sum and the color gains c_new times w_new (color arithmetic wrapping in the
pool type C of modulus m). -/
theorem c1_saturating_weighted_sum (wmax m : Nat) (cur v : Voxel)
    (hw : cur.weight ≤ wmax) :
    (cur.weight = wmax → add_color_with_weight_check wmax m cur v = cur) ∧
    (cur.weight ≠ wmax → wmax < cur.weight + v.weight →
      (add_color_with_weight_check wmax m cur v).weight = wmax ∧
      (add_color_with_weight_check wmax m cur v).color
        = colorAdd m cur.color (colorScale m v.color (wmax - cur.weight))) ∧
    (cur.weight ≠ wmax → cur.weight + v.weight ≤ wmax →
      (add_color_with_weight_check wmax m cur v).weight = cur.weight + v.weight ∧
      (add_color_with_weight_check wmax m cur v).color
        = colorAdd m cur.color (colorScale m v.color v.weight)) := by
  refine ⟨fun h => ?_, fun h hov => ?_, fun h hle => ?_⟩
  · simp [add_color_with_weight_check, h]
  · have hnone : (checkedAdd wmax cur.weight v.weight).isNone = true := by
      simp [checkedAdd, Nat.not_le.mpr hov]
    simp only [add_color_with_weight_check, if_neg h, if_pos hnone]
    refine ⟨by omega, ?_⟩
    rw [colorScale_mod]
  · have hsome : ¬ (checkedAdd wmax cur.weight v.weight).isNone = true := by
      simp [checkedAdd, hle]
    simp only [add_color_with_weight_check, if_neg h, if_neg hsome]
    exact ⟨by trivial, by rw [colorScale_mod]⟩

/-- Witness for C1 at a concrete saturating merge with W = u8 and a 16-bit
color pool. -/
theorem c1_saturating_weighted_sum_witness :
    (Voxel.mk ⟨10, 20, 30⟩ 250).weight ≤ 255 ∧
    ((250 = 255 → add_color_with_weight_check 255 65536 ⟨⟨10, 20, 30⟩, 250⟩ ⟨⟨1, 2, 3⟩, 10⟩
        = ⟨⟨10, 20, 30⟩, 250⟩) ∧
      (250 ≠ 255 → 255 < 250 + 10 →
        (add_color_with_weight_check 255 65536 ⟨⟨10, 20, 30⟩, 250⟩ ⟨⟨1, 2, 3⟩, 10⟩).weight = 255 ∧
        (add_color_with_weight_check 255 65536 ⟨⟨10, 20, 30⟩, 250⟩ ⟨⟨1, 2, 3⟩, 10⟩).color
          = colorAdd 65536 ⟨10, 20, 30⟩ (colorScale 65536 ⟨1, 2, 3⟩ (255 - 250))) ∧
      (250 ≠ 255 → 250 + 10 ≤ 255 →
        (add_color_with_weight_check 255 65536 ⟨⟨10, 20, 30⟩, 250⟩ ⟨⟨1, 2, 3⟩, 10⟩).weight
          = 250 + 10 ∧
        (add_color_with_weight_check 255 65536 ⟨⟨10, 20, 30⟩, 250⟩ ⟨⟨1, 2, 3⟩, 10⟩).color
          = colorAdd 65536 ⟨10, 20, 30⟩ (colorScale 65536 ⟨1, 2, 3⟩ 10))) :=
  ⟨by decide, c1_saturating_weighted_sum 255 65536 ⟨⟨10, 20, 30⟩, 250⟩ ⟨⟨1, 2, 3⟩, 10⟩ (by decide)⟩

/-- Integer 3-D cell coordinate, embedding Point3D over the coordinate
type parameter P. -/
abbrev P3 := Int × Int × Int

/-- Componentwise addition of coordinates. -/
def p3add (a c : P3) : P3 :=
  (a.1 + c.1, a.2.1 + c.2.1, a.2.2 + c.2.2)

/-- Lookup in an association list, embedding a hash-map read. -/
def alGet {κ β : Type} [DecidableEq κ] : List (κ × β) → κ → Option β
  | [], _ => none
  | kv :: t, q => if kv.1 = q then some kv.2 else alGet t q

/-- Embedding of DashMap entry(q).and_modify(f).or_insert(d): modify the
value at key q when present, append (q, d) otherwise. -/
def alInsertWith {κ β : Type} [DecidableEq κ] (f : β → β) (d : β) :
    List (κ × β) → κ → List (κ × β)
  | [], q => [(q, d)]
  | kv :: t, q => if kv.1 = q then (kv.1, f kv.2) :: t else kv :: alInsertWith f d t q

/-- Reading an entry-or-insert result: at the touched key the value was
modified or defaulted, elsewhere nothing changed. -/
theorem alGet_alInsertWith {κ β : Type} [DecidableEq κ] (f : β → β) (d : β)
    (l : List (κ × β)) (q p : κ) :
    alGet (alInsertWith f d l q) p
      = if q = p then some ((alGet l q).elim d f) else alGet l p := by
  induction l with
  | nil =>
    by_cases h : q = p <;> simp [alInsertWith, alGet, h]
  | cons kv t ih =>
    by_cases hkq : kv.1 = q
    · by_cases hqp : q = p
      · subst hqp
        simp [alInsertWith, alGet, hkq]
      · have hkp : ¬ kv.1 = p := fun h => hqp (hkq ▸ h)
        simp [alInsertWith, alGet, hkq, hkp, hqp]
    · by_cases hqp : q = p
      · subst hqp
        simp [alInsertWith, alGet, hkq, ih]
      · have hpq : ¬ p = q := fun h => hqp h.symm
        by_cases hkp : kv.1 = p <;> simp [alInsertWith, alGet, hkq, hkp, hqp, hpq, ih]

/-- Embedding of HMap3DVoxelCollection: a concurrent hash map keyed by the
3-D cell, with cached bounds, offset and resolution. -/
structure HMap3D where
  field : List (P3 × Voxel)
  bounds : Option (P3 × P3)
  offset : P3
  resolution : ℚ
deriving DecidableEq

/-- Embedding of HMap3DVoxelCollection::insert_one: merge into the entry
with the saturating scheme, or insert the voxel as given; the bounds cache
is dropped. -/
def hmap3d_insert_one (wmax m : Nat) (s : HMap3D) (p : P3) (v : Voxel) : HMap3D :=
  { s with
    field := alInsertWith (fun cur => add_color_with_weight_check wmax m cur v) v s.field p
    bounds := none }

/-- The default (empty) hash store, resolution one. -/
def hmap3d_empty : HMap3D :=
  ⟨[], none, (0, 0, 0), 1⟩

/-- Inserting a list of colored points, each as a fresh voxel of weight
one, left to right. -/
def hmap3d_insert_points (wmax m : Nat) (s : HMap3D) (l : List (P3 × Color3)) : HMap3D :=
  l.foldl (fun acc pc => hmap3d_insert_one wmax m acc pc.1 (Voxel.ofColor pc.2)) s

/-- The averaged color the store reports for a cell (to_points, pointwise). -/
def hmap3d_avg_at (s : HMap3D) (p : P3) : Option Color3 :=
  (alGet s.field p).map (fun v => colorDivW v.color v.weight)

/-- One insertion step as seen by a single cell. -/
def cellStep (wmax m : Nat) (o : Option Voxel) (c : Color3) : Option Voxel :=
  match o with
  | none => some (Voxel.ofColor c)
  | some cur => some (add_color_with_weight_check wmax m cur (Voxel.ofColor c))

/-- The colors a given cell receives from an insertion list, in order. -/
def colorsAt (p : P3) (l : List (P3 × Color3)) : List Color3 :=
  (l.filter (fun pc => decide (pc.1 = p))).map Prod.snd

/-- The store value at a cell after a batch of weight-one insertions is the
fold of that cell's own colors over the single-cell step. -/
theorem insert_points_alGet (wmax m : Nat) (l : List (P3 × Color3)) :
    ∀ (s : HMap3D) (p : P3),
      alGet (hmap3d_insert_points wmax m s l).field p
        = (colorsAt p l).foldl (cellStep wmax m) (alGet s.field p) := by
  induction l with
  | nil => intro s p; rfl
  | cons pc t ih =>
    intro s p
    have hstep : alGet (hmap3d_insert_one wmax m s pc.1 (Voxel.ofColor pc.2)).field p
        = if pc.1 = p then cellStep wmax m (alGet s.field p) pc.2 else alGet s.field p := by
      have h := alGet_alInsertWith
        (fun cur => add_color_with_weight_check wmax m cur (Voxel.ofColor pc.2))
        (Voxel.ofColor pc.2) s.field pc.1 p
      by_cases hc : pc.1 = p
      · subst hc
        simp only [hmap3d_insert_one, h, if_pos rfl]
        cases alGet s.field pc.1 <;> rfl
      · simp [hmap3d_insert_one, h, hc]
    by_cases hc : pc.1 = p
    · have hcolors : colorsAt p (pc :: t) = pc.2 :: colorsAt p t := by
        simp [colorsAt, List.filter_cons, hc]
      simp only [hmap3d_insert_points, List.foldl_cons] at *
      rw [ih, hstep, if_pos hc, hcolors, List.foldl_cons]
    · have hcolors : colorsAt p (pc :: t) = colorsAt p t := by
        simp [colorsAt, List.filter_cons, hc]
      simp only [hmap3d_insert_points, List.foldl_cons] at *
      rw [ih, hstep, if_neg hc, hcolors]

/-- In the non-saturating regime the single-cell fold is a plain running
sum: starting from a reduced color a and weight j, folding cs yields the
wrapped channel sums and the weight j plus the length of cs. -/
theorem cellStep_fold_nosat (wmax m : Nat) (hm : 2 ≤ m) :
    ∀ (cs : List Color3) (a : Color3) (j : Nat),
      1 ≤ j → j + cs.length ≤ wmax →
      a.r < m → a.g < m → a.b < m →
      cs.foldl (cellStep wmax m) (some ⟨a, j⟩)
        = some ⟨⟨(a.r + (cs.map Color3.r).sum) % m,
                 (a.g + (cs.map Color3.g).sum) % m,
                 (a.b + (cs.map Color3.b).sum) % m⟩, j + cs.length⟩ := by
  intro cs
  induction cs with
  | nil =>
    intro a j hj hlen har hag hab
    simp [Nat.mod_eq_of_lt, har, hag, hab]
  | cons c t ih =>
    intro a j hj hlen har hag hab
    have hjw : j ≠ wmax := by simp only [List.length_cons] at hlen; omega
    have hsome : ¬ (checkedAdd wmax j 1).isNone = true := by
      simp only [List.length_cons] at hlen
      simp [checkedAdd]; omega
    have hone : 1 % m = 1 := Nat.mod_eq_of_lt (by omega)
    have hstep : cellStep wmax m (some ⟨a, j⟩) c
        = some ⟨⟨(a.r + c.r) % m, (a.g + c.g) % m, (a.b + c.b) % m⟩, j + 1⟩ := by
      simp only [cellStep, add_color_with_weight_check, Voxel.ofColor, if_neg hjw,
        if_neg hsome]
      simp [colorAdd, colorScale, hone, Nat.add_mod_mod]
    rw [List.foldl_cons, hstep,
      ih _ (j + 1) (by omega) (by simp only [List.length_cons] at hlen; omega)
        (Nat.mod_lt _ (by omega)) (Nat.mod_lt _ (by omega)) (Nat.mod_lt _ (by omega))]
    simp only [List.map_cons, List.sum_cons, List.length_cons]
    refine congrArg some ?_
    refine Voxel.mk.injEq _ _ _ _ ▸ ?_
    constructor
    · refine Color3.mk.injEq _ _ _ _ _ _ ▸ ?_
      refine ⟨?_, ?_, ?_⟩ <;> rw [Nat.mod_add_mod] <;> ring_nf
    · omega

/-- Folding a nonempty color list from the vacant state yields the wrapped
channel sums with weight equal to the number of contributions, provided the
total count stays below the weight cap. -/
theorem cellStep_fold_eval (wmax m : Nat) (hm : 2 ≤ m) (c : Color3) (t : List Color3)
    (hlen : (c :: t).length ≤ wmax)
    (hchan : ∀ x ∈ c :: t, x.r < m ∧ x.g < m ∧ x.b < m) :
    (c :: t).foldl (cellStep wmax m) none
      = some ⟨⟨((c :: t).map Color3.r).sum % m,
               ((c :: t).map Color3.g).sum % m,
               ((c :: t).map Color3.b).sum % m⟩, (c :: t).length⟩ := by
  have hc := hchan c (List.mem_cons_self c t)
  have hfirst : cellStep wmax m none c = some ⟨c, 1⟩ := rfl
  rw [List.foldl_cons, hfirst,
    cellStep_fold_nosat wmax m hm t c 1 (le_refl 1)
      (by simp only [List.length_cons] at hlen; omega) hc.1 hc.2.1 hc.2.2]
  simp [List.length_cons, Nat.add_comm]

/-- C2: for weight-one insertions into the 3-D hash store whose per-cell
count stays within W::MAX and whose per-channel color sums stay within the
color pool, the averaged color of every cell is the same for every
permutation of the insertion order. -/
theorem c2_insertion_order_invariance (wmax m : Nat) (l l2 : List (P3 × Color3))
    (hperm : l.Perm l2) (hm : 2 ≤ m)
    (hcount : ∀ p : P3, (l.filter (fun pc => decide (pc.1 = p))).length ≤ wmax)
    (hchan : ∀ pc ∈ l, pc.2.r < m ∧ pc.2.g < m ∧ pc.2.b < m)
    (_hsum : ∀ p : P3,
      ((l.filter (fun pc => decide (pc.1 = p))).map (fun pc => pc.2.r)).sum < m ∧
      ((l.filter (fun pc => decide (pc.1 = p))).map (fun pc => pc.2.g)).sum < m ∧
      ((l.filter (fun pc => decide (pc.1 = p))).map (fun pc => pc.2.b)).sum < m)
    (p : P3) :
    hmap3d_avg_at (hmap3d_insert_points wmax m hmap3d_empty l) p
      = hmap3d_avg_at (hmap3d_insert_points wmax m hmap3d_empty l2) p := by
  have hbase : alGet hmap3d_empty.field p = none := rfl
  have h1 := insert_points_alGet wmax m l hmap3d_empty p
  have h2 := insert_points_alGet wmax m l2 hmap3d_empty p
  have hpermf : (l.filter (fun pc => decide (pc.1 = p))).Perm
      (l2.filter (fun pc => decide (pc.1 = p))) := hperm.filter _
  have hpermc : (colorsAt p l).Perm (colorsAt p l2) := hpermf.map _
  unfold hmap3d_avg_at
  rw [h1, h2, hbase]
  rcases hcs : colorsAt p l with _ | ⟨c, t⟩
  · have hnil2 : ([] : List Color3).Perm (colorsAt p l2) := by
      rw [← hcs]; exact hpermc
    rw [hnil2.symm.eq_nil]
  · have h2ne : colorsAt p l2 ≠ [] := by
      intro hnil
      rw [hcs, hnil] at hpermc
      simpa using hpermc.length_eq
    obtain ⟨c2, t2, hc2⟩ := List.exists_cons_of_ne_nil h2ne
    have hchan1 : ∀ x ∈ c :: t, x.r < m ∧ x.g < m ∧ x.b < m := by
      intro x hx
      rw [← hcs] at hx
      obtain ⟨pc, hpc, hpc2⟩ := List.mem_map.mp hx
      have := List.mem_filter.mp hpc
      exact hpc2 ▸ hchan pc this.1
    rw [hcs, hc2] at hpermc
    have hlen1 : (c :: t).length ≤ wmax := by
      have hcnt := hcount p
      have hl : (colorsAt p l).length = (l.filter (fun pc => decide (pc.1 = p))).length :=
        List.length_map _ _
      rw [hcs] at hl
      omega
    have hlen2 : (c2 :: t2).length ≤ wmax := by
      have := hpermc.length_eq
      omega
    have hchan2 : ∀ x ∈ c2 :: t2, x.r < m ∧ x.g < m ∧ x.b < m := by
      intro x hx
      exact hchan1 x (hpermc.mem_iff.mpr hx)
    rw [hc2,
      cellStep_fold_eval wmax m hm c t hlen1 hchan1,
      cellStep_fold_eval wmax m hm c2 t2 hlen2 hchan2,
      (hpermc.map Color3.r).sum_eq, (hpermc.map Color3.g).sum_eq,
      (hpermc.map Color3.b).sum_eq, hpermc.length_eq]

/-- A two-point insertion batch on one cell. -/
def c2Batch : List (P3 × Color3) :=
  [((0, 0, 0), ⟨10, 20, 30⟩), ((0, 0, 0), ⟨30, 0, 0⟩)]

/-- The same batch in the other order. -/
def c2BatchRev : List (P3 × Color3) :=
  [((0, 0, 0), ⟨30, 0, 0⟩), ((0, 0, 0), ⟨10, 20, 30⟩)]

/-- Witness for C2 on a concrete two-insertion batch and its transposition
with W = u8 and a 16-bit pool. -/
theorem c2_insertion_order_invariance_witness :
    c2Batch.Perm c2BatchRev ∧ 2 ≤ 65536 ∧
    (∀ p : P3, (c2Batch.filter (fun pc => decide (pc.1 = p))).length ≤ 255) ∧
    (∀ pc ∈ c2Batch, pc.2.r < 65536 ∧ pc.2.g < 65536 ∧ pc.2.b < 65536) ∧
    (∀ p : P3,
      ((c2Batch.filter (fun pc => decide (pc.1 = p))).map (fun pc => pc.2.r)).sum < 65536 ∧
      ((c2Batch.filter (fun pc => decide (pc.1 = p))).map (fun pc => pc.2.g)).sum < 65536 ∧
      ((c2Batch.filter (fun pc => decide (pc.1 = p))).map (fun pc => pc.2.b)).sum < 65536) ∧
    hmap3d_avg_at (hmap3d_insert_points 255 65536 hmap3d_empty c2Batch) (0, 0, 0)
      = hmap3d_avg_at (hmap3d_insert_points 255 65536 hmap3d_empty c2BatchRev) (0, 0, 0) := by
  have hperm : c2Batch.Perm c2BatchRev := List.Perm.swap _ _ _
  have hcount : ∀ p : P3, (c2Batch.filter (fun pc => decide (pc.1 = p))).length ≤ 255 := by
    intro p
    exact le_trans (List.filter_sublist _).length_le (by decide)
  have hchan : ∀ pc ∈ c2Batch, pc.2.r < 65536 ∧ pc.2.g < 65536 ∧ pc.2.b < 65536 := by
    decide
  have hsum : ∀ p : P3,
      ((c2Batch.filter (fun pc => decide (pc.1 = p))).map (fun pc => pc.2.r)).sum < 65536 ∧
      ((c2Batch.filter (fun pc => decide (pc.1 = p))).map (fun pc => pc.2.g)).sum < 65536 ∧
      ((c2Batch.filter (fun pc => decide (pc.1 = p))).map (fun pc => pc.2.b)).sum < 65536 := by
    intro p
    by_cases h : ((0, 0, 0) : P3) = p
    · subst h; refine ⟨by decide, by decide, by decide⟩
    · have h0 : ¬ (0 : P3) = p := h
      simp [c2Batch, List.filter_cons, h0]
  exact ⟨hperm, by decide, hcount, hchan, hsum,
    c2_insertion_order_invariance 255 65536 c2Batch c2BatchRev hperm (by decide)
      hcount hchan hsum (0, 0, 0)⟩

/-- Bit of ValidSide::TOP. -/
def sideTOP : Nat := 1

/-- Bit of ValidSide::BOTTOM. -/
def sideBOTTOM : Nat := 2

/-- Bit of ValidSide::LEFT. -/
def sideLEFT : Nat := 4

/-- Bit of ValidSide::RIGHT. -/
def sideRIGHT : Nat := 8

/-- Bit of ValidSide::FRONT. -/
def sideFRONT : Nat := 16

/-- Bit of ValidSide::BACK. -/
def sideBACK : Nat := 32

/-- Bit of ValidSide::BORDER. -/
def sideBORDER : Nat := 64

/-- Embedding of the bitflags contains test. -/
def hasFlag (vs flag : Nat) : Bool :=
  decide (vs &&& flag = flag)

/-- The six per-direction corner-offset lists of Mesher::meshing, in the
order the source array lists them: LEFT, RIGHT, BOTTOM, TOP, BACK, FRONT. -/
def faceDeltas : Fin 6 → List P3
  | 0 => [(0, 0, 0), (0, 0, 1), (0, 1, 1), (0, 1, 1), (0, 1, 0), (0, 0, 0)]
  | 1 => [(1, 0, 0), (1, 1, 0), (1, 1, 1), (1, 1, 1), (1, 0, 1), (1, 0, 0)]
  | 2 => [(0, 0, 0), (0, 1, 0), (1, 1, 0), (1, 1, 0), (1, 0, 0), (0, 0, 0)]
  | 3 => [(0, 0, 1), (1, 0, 1), (1, 1, 1), (1, 1, 1), (0, 1, 1), (0, 0, 1)]
  | 4 => [(0, 0, 0), (1, 0, 0), (1, 0, 1), (1, 0, 1), (0, 0, 1), (0, 0, 0)]
  | 5 => [(1, 1, 1), (1, 1, 0), (0, 1, 0), (0, 1, 0), (0, 1, 1), (1, 1, 1)]

/-- The ValidSide bit guarding each direction, in the source array order. -/
def faceFlag : Fin 6 → Nat
  | 0 => sideLEFT
  | 1 => sideRIGHT
  | 2 => sideBOTTOM
  | 3 => sideTOP
  | 4 => sideBACK
  | 5 => sideFRONT

/-- The neighbor probed for each direction (Point::left, right, bottom,
top, back, front of element.rs). -/
def neighborOf : Fin 6 → P3 → P3
  | 0, p => (p.1 - 1, p.2.1, p.2.2)
  | 1, p => (p.1 + 1, p.2.1, p.2.2)
  | 2, p => (p.1, p.2.1, p.2.2 - 1)
  | 3, p => (p.1, p.2.1, p.2.2 + 1)
  | 4, p => (p.1, p.2.1 - 1, p.2.2)
  | 5, p => (p.1, p.2.1 + 1, p.2.2)

/-- Embedding of the on_border closure: some coordinate of the vertex
equals the min or max bound of the mesh. -/
def onBorder (bounds : P3 × P3) (v : P3) : Bool :=
  decide (v.1 = bounds.1.1) || decide (v.1 = bounds.2.1) ||
    decide (v.2.1 = bounds.1.2.1) || decide (v.2.1 = bounds.2.2.1) ||
    decide (v.2.2 = bounds.1.2.2) || decide (v.2.2 = bounds.2.2.2)

/-- The six corner vertices of a face of the unit cell at p. -/
def faceVerts (d : Fin 6) (p : P3) : List P3 :=
  (faceDeltas d).map (p3add p)

/-- The faces of one cell that survive the three filters of
Mesher::meshing: direction bit enabled, neighbor not occupied, and the
border rule when the BORDER bit is off. -/
def keptFaces (vs : Nat) (occ : P3 → Bool) (bounds : P3 × P3) (p : P3) : List (List P3) :=
  ((List.finRange 6).filter
      (fun d => hasFlag vs (faceFlag d) && ! occ (neighborOf d p))).filterMap
    (fun d =>
      if ! hasFlag vs sideBORDER && (faceVerts d p).any (onBorder bounds)
      then none
      else some (faceVerts d p))

/-- The flattened unit_faces vertex list of one cell. -/
def unitFacesList (vs : Nat) (occ : P3 → Bool) (bounds : P3 × P3) (p : P3) : List P3 :=
  (keptFaces vs occ bounds p).flatten

/-- The voxel-collection interface Mesher::meshing consumes: the averaged
points (to_points), the membership test (has), the cached or computed
bounds (get_bounds), the offset and the resolution. -/
structure MeshInput where
  points : List (P3 × Color3)
  occupied : P3 → Bool
  bounds : P3 × P3
  offset : P3
  resolution : ℚ

/-- Embedding of VoxelMesh (mesh.rs): bounds, offset, the insertion-ordered
vertex set, the per-color face index lists, and the resolution. -/
structure VoxelMeshL where
  bounds : P3 × P3
  offset : P3
  points : List P3
  faces : List (Color3 × List Nat)
  resolution : ℚ

/-- First index of a vertex in the insertion-ordered set. -/
def indexOfP : List P3 → P3 → Option Nat
  | [], _ => none
  | q :: t, v => if q = v then some 0 else (indexOfP t v).map Nat.succ

/-- Embedding of IndexSet::insert_full: return the existing index, or
append and return the fresh index. -/
def insertFull (pts : List P3) (v : P3) : List P3 × Nat :=
  match indexOfP pts v with
  | some i => (pts, i)
  | none => (pts ++ [v], pts.length)

/-- Insert a run of vertices left to right, collecting their indices. -/
def insertAll (pts : List P3) : List P3 → List P3 × List Nat
  | [] => (pts, [])
  | v :: rest =>
    let r1 := insertFull pts v
    let r2 := insertAll r1.1 rest
    (r2.1, r1.2 :: r2.2)

/-- The body of the per-cell loop of Mesher::meshing: build the surviving
face vertices, skip the cell when none survive, otherwise intern the
vertices and append their indices to the face list of the cell's color. -/
def meshStep (vs : Nat) (occ : P3 → Bool) (mesh : VoxelMeshL) (pc : P3 × Color3) :
    VoxelMeshL :=
  let uf := unitFacesList vs occ mesh.bounds pc.1
  if uf.isEmpty then mesh
  else
    let r := insertAll mesh.points uf
    { mesh with
      points := r.1
      faces := alInsertWith (fun t => t ++ r.2) r.2 mesh.faces pc.2 }

/-- Embedding of Mesher::meshing: the mesh bounds are the store bounds with
the max corner pushed out by one, then every cell of to_points is
processed in order. -/
def meshing (input : MeshInput) (vs : Nat) : VoxelMeshL :=
  input.points.foldl (meshStep vs input.occupied)
    { bounds := (input.bounds.1, p3add input.bounds.2 (1, 1, 1))
      offset := input.offset
      points := []
      faces := []
      resolution := input.resolution }

/-- Embedding of PrivateVoxelCollectionMethod::calc_bounds: per-axis
minima and maxima of the listed cells, the origin pair for an empty list. -/
def calc_bounds (pts : List (P3 × Voxel)) : P3 × P3 :=
  match pts with
  | [] => ((0, 0, 0), (0, 0, 0))
  | q :: t =>
    ((t.foldl (fun acc pv => min acc pv.1.1) q.1.1,
      t.foldl (fun acc pv => min acc pv.1.2.1) q.1.2.1,
      t.foldl (fun acc pv => min acc pv.1.2.2) q.1.2.2),
     (t.foldl (fun acc pv => max acc pv.1.1) q.1.1,
      t.foldl (fun acc pv => max acc pv.1.2.1) q.1.2.1,
      t.foldl (fun acc pv => max acc pv.1.2.2) q.1.2.2))

/-- Embedding of get_bounds for the 3-D hash store: the cached bounds, or
the computed bounds of the cells shifted by the offset. -/
def hmap3d_get_bounds (s : HMap3D) : P3 × P3 :=
  match s.bounds with
  | some b => b
  | none =>
    let b := calc_bounds s.field
    (p3add b.1 s.offset, p3add b.2 s.offset)

/-- Embedding of HMap3DVoxelCollection::has. -/
def hmap3d_has (s : HMap3D) (p : P3) : Bool :=
  (alGet s.field p).isSome

/-- Embedding of to_points for the 3-D hash store: each cell with its
averaged color. -/
def hmap3d_to_points (s : HMap3D) : List (P3 × Color3) :=
  s.field.map (fun pv => (pv.1, colorDivW pv.2.color pv.2.weight))

/-- The mesher view of a 3-D hash store. -/
def hmap3d_mesh_input (s : HMap3D) : MeshInput :=
  ⟨hmap3d_to_points s, fun p => hmap3d_has s p, hmap3d_get_bounds s, s.offset, s.resolution⟩

/-- A store holding the single occupied cell at the origin. -/
def singleCellStore : HMap3D :=
  ⟨[((0, 0, 0), ⟨⟨255, 0, 0⟩, 1⟩)], none, (0, 0, 0), 1⟩

/-- Distinct directions have distinct face vertex lists. -/
theorem faceVerts_inj (d d2 : Fin 6) (p : P3) (h : faceVerts d p = faceVerts d2 p) :
    d = d2 := by
  have hinj : Function.Injective (p3add p) := by
    intro a c hac
    simp only [p3add, Prod.ext_iff] at hac
    obtain ⟨h1, h2, h3⟩ := hac
    refine Prod.ext (by omega) (Prod.ext (by omega) (by omega))
  have hd : faceDeltas d = faceDeltas d2 :=
    List.map_injective_iff.mpr hinj h
  have haux : ∀ a c : Fin 6, faceDeltas a = faceDeltas c → a = c := by decide
  exact haux d d2 hd

/-- C3: a face of an occupied cell survives to the emitted unit-face list
exactly when its direction bit is set, the neighboring cell is not
occupied, and, with the BORDER bit off, none of its corner vertices lies
on the min or max bound of the mesh; consequently a single cell at the
origin with all six direction bits and BORDER off produces a mesh with no
faces and no vertices. -/
theorem c3_face_filter_and_border_suppression :
    (∀ (vs : Nat) (occ : P3 → Bool) (bounds : P3 × P3) (p : P3) (d : Fin 6),
      faceVerts d p ∈ keptFaces vs occ bounds p ↔
        (hasFlag vs (faceFlag d) = true ∧ occ (neighborOf d p) = false ∧
          (hasFlag vs sideBORDER = false →
            ∀ v ∈ faceVerts d p, onBorder bounds v = false))) ∧
    (meshing (hmap3d_mesh_input singleCellStore) 63).faces = [] ∧
    (meshing (hmap3d_mesh_input singleCellStore) 63).points = [] := by
  refine ⟨?_, by decide, by decide⟩
  intro vs occ bounds p d
  constructor
  · intro hmem
    obtain ⟨d2, hd2, hsome⟩ := List.mem_filterMap.mp hmem
    have hd2f := List.mem_filter.mp hd2
    by_cases hb : (! hasFlag vs sideBORDER && (faceVerts d2 p).any (onBorder bounds)) = true
    · rw [if_pos hb] at hsome
      exact absurd hsome (by simp)
    · rw [if_neg hb] at hsome
      have hdd : d2 = d := faceVerts_inj d2 d p (Option.some.injEq _ _ ▸ hsome)
      subst hdd
      have hpred := hd2f.2
      rw [Bool.and_eq_true] at hpred
      obtain ⟨h1, h2b⟩ := hpred
      have h2 : occ (neighborOf d2 p) = false := by simpa using h2b
      refine ⟨h1, h2, ?_⟩
      intro hboff v hv
      have hnotany : (faceVerts d2 p).any (onBorder bounds) = false := by
        rcases Bool.eq_false_or_eq_true ((faceVerts d2 p).any (onBorder bounds)) with h | h
        · exact absurd (by simp [hboff, h]) hb
        · exact h
      have := List.any_eq_false.mp hnotany v hv
      simpa using this
  · rintro ⟨h1, h2, h3⟩
    refine List.mem_filterMap.mpr ⟨d, ?_, ?_⟩
    · refine List.mem_filter.mpr ⟨List.mem_finRange d, ?_⟩
      simp [h1, h2]
    · rcases Bool.eq_false_or_eq_true (hasFlag vs sideBORDER) with hb | hb
      · rw [if_neg (by simp [hb])]
      · have hnotany : (faceVerts d p).any (onBorder bounds) = false :=
          List.any_eq_false.mpr (fun v hv => by simp [h3 hb v hv])
        rw [if_neg (by simp [hnotany])]

/-- A vertex index is referenced by some per-color face list of a mesh. -/
def refIn (faces : List (Color3 × List Nat)) (i : Nat) : Prop :=
  ∃ e ∈ faces, i ∈ e.2

/-- Interning a run of vertices: every valid index of the grown vertex set
was already valid or is among the returned indices. -/
theorem insertAll_cover :
    ∀ (run : List P3) (pts : List P3) (i : Nat),
      i < (insertAll pts run).1.length →
      i < pts.length ∨ i ∈ (insertAll pts run).2 := by
  intro run
  induction run with
  | nil => intro pts i h; exact Or.inl h
  | cons v rest ih =>
    intro pts i h
    simp only [insertAll] at h ⊢
    rcases ih (insertFull pts v).1 i h with hlt | hmem
    · rcases hfull : indexOfP pts v with _ | j
      · rw [insertFull, hfull] at hlt
        simp only [List.length_append, List.length_cons, List.length_nil] at hlt
        rcases Nat.lt_or_ge i pts.length with h2 | h2
        · exact Or.inl h2
        · have : i = pts.length := by omega
          refine Or.inr ?_
          rw [insertFull, hfull]
          exact this ▸ List.mem_cons_self _ _
      · rw [insertFull, hfull] at hlt
        exact Or.inl hlt
    · exact Or.inr (List.mem_cons_of_mem _ hmem)

/-- Appending indices to one color entry keeps every existing reference. -/
theorem refIn_insert_old (faces : List (Color3 × List Nat)) (c : Color3)
    (idxs : List Nat) (i : Nat) (h : refIn faces i) :
    refIn (alInsertWith (fun t => t ++ idxs) idxs faces c) i := by
  induction faces with
  | nil => obtain ⟨e, he, _⟩ := h; exact absurd he (List.not_mem_nil e)
  | cons kv t ih =>
    obtain ⟨e, he, hie⟩ := h
    rcases List.mem_cons.mp he with he | he
    · by_cases hk : kv.1 = c
      · exact ⟨(kv.1, kv.2 ++ idxs), by simp [alInsertWith, hk],
          by subst he; exact List.mem_append_left _ hie⟩
      · exact ⟨e, by simp [alInsertWith, hk, he], hie⟩
    · by_cases hk : kv.1 = c
      · exact ⟨e, by simp [alInsertWith, hk, he], hie⟩
      · obtain ⟨e2, he2, hie2⟩ := ih ⟨e, he, hie⟩
        exact ⟨e2, by simp [alInsertWith, hk, List.mem_cons_of_mem, he2], hie2⟩

/-- The freshly appended indices are referenced after the update. -/
theorem refIn_insert_new (faces : List (Color3 × List Nat)) (c : Color3)
    (idxs : List Nat) (i : Nat) (h : i ∈ idxs) :
    refIn (alInsertWith (fun t => t ++ idxs) idxs faces c) i := by
  induction faces with
  | nil => exact ⟨(c, idxs), by simp [alInsertWith], h⟩
  | cons kv t ih =>
    by_cases hk : kv.1 = c
    · exact ⟨(kv.1, kv.2 ++ idxs), by simp [alInsertWith, hk],
        List.mem_append_right _ h⟩
    · obtain ⟨e2, he2, hie2⟩ := ih
      exact ⟨e2, by simp [alInsertWith, hk, List.mem_cons_of_mem, he2], hie2⟩

/-- One mesher step preserves the all-vertices-referenced invariant. -/
theorem meshStep_refs (vs : Nat) (occ : P3 → Bool) (mesh : VoxelMeshL)
    (pc : P3 × Color3)
    (h : ∀ i, i < mesh.points.length → refIn mesh.faces i) :
    ∀ i, i < (meshStep vs occ mesh pc).points.length →
      refIn (meshStep vs occ mesh pc).faces i := by
  intro i hi
  by_cases he : (unitFacesList vs occ mesh.bounds pc.1).isEmpty
  · rw [meshStep, if_pos he] at hi ⊢
    exact h i hi
  · rw [meshStep, if_neg he] at hi ⊢
    rcases insertAll_cover (unitFacesList vs occ mesh.bounds pc.1) mesh.points i hi
      with hold | hnew
    · exact refIn_insert_old mesh.faces pc.2 _ i (h i hold)
    · exact refIn_insert_new mesh.faces pc.2 _ i hnew

/-- C10: every vertex stored in the insertion-ordered vertex set of a mesh
produced by Mesher::meshing is referenced by at least one index of some
per-color face list; a cell whose faces are all filtered away contributes
no vertices. -/
theorem c10_every_vertex_referenced (input : MeshInput) (vs : Nat) (i : Nat)
    (hi : i < (meshing input vs).points.length) :
    refIn (meshing input vs).faces i := by
  suffices hgen : ∀ (cells : List (P3 × Color3)) (mesh : VoxelMeshL),
      (∀ j, j < mesh.points.length → refIn mesh.faces j) →
      ∀ j, j < (cells.foldl (meshStep vs input.occupied) mesh).points.length →
        refIn (cells.foldl (meshStep vs input.occupied) mesh).faces j by
    refine hgen input.points _ (fun j hj => absurd hj (by simp)) i hi
  intro cells
  induction cells with
  | nil => intro mesh h j hj; exact h j hj
  | cons pc rest ih =>
    intro mesh h j hj
    exact ih (meshStep vs input.occupied mesh pc) (meshStep_refs vs input.occupied mesh pc h)
      j hj

/-- Witness for C10 on the single-cell store meshed with every side bit and
the BORDER bit enabled. -/
theorem c10_every_vertex_referenced_witness :
    0 < (meshing (hmap3d_mesh_input singleCellStore) 127).points.length ∧
    refIn (meshing (hmap3d_mesh_input singleCellStore) 127).faces 0 :=
  ⟨by decide, c10_every_vertex_referenced (hmap3d_mesh_input singleCellStore) 127 0 (by decide)⟩

/-- Componentwise subtraction of coordinates. -/
def p3sub (a c : P3) : P3 :=
  (a.1 - c.1, a.2.1 - c.2.1, a.2.2 - c.2.2)

/-- The cast from the signed coordinate type to usize performed by the
dense stores: the two-adic wrap into the 64-bit index range. -/
def usizeCast (z : Int) : Nat :=
  (z % (2 : Int) ^ 64).toNat

/-- Apply f to the element at one position of a list, embedding the
get_mut chains of the dense stores: nothing happens out of range. -/
def modAt {α : Type} (f : α → α) : List α → Nat → List α
  | [], _ => []
  | a :: t, 0 => f a :: t
  | a :: t, n + 1 => a :: modAt f t n

/-- Out-of-range modification is the identity. -/
theorem modAt_of_le {α : Type} (f : α → α) :
    ∀ (l : List α) (n : Nat), l.length ≤ n → modAt f l n = l := by
  intro l
  induction l with
  | nil => intro n _; rfl
  | cons a t ih =>
    intro n h
    match n with
    | 0 => simp at h
    | n + 1 =>
      simp only [List.length_cons] at h
      simp [modAt, ih n (by omega)]

/-- A modification that fixes every member of the list is the identity. -/
theorem modAt_congr_id {α : Type} (f : α → α) :
    ∀ (l : List α) (n : Nat), (∀ a ∈ l, f a = a) → modAt f l n = l := by
  intro l
  induction l with
  | nil => intro n _; rfl
  | cons a t ih =>
    intro n h
    match n with
    | 0 => simp [modAt, h a (List.mem_cons_self a t)]
    | n + 1 => simp [modAt, ih n (fun x hx => h x (List.mem_cons_of_mem a hx))]

/-- Embedding of Vec3VoxelCollection: a dense 3-D array sized to the
construction-fixed bounds. -/
structure Vec3VC where
  field : List (List (List Voxel))
  bounds : P3 × P3
  offset : P3
  resolution : ℚ
deriving DecidableEq

/-- Embedding of Vec3VoxelCollection::insert_one: index by the wrapped
offset from the min bound and merge in place; every out-of-range index
falls off the get_mut chain and changes nothing. -/
def vec3_insert_one (wmax m : Nat) (s : Vec3VC) (p : P3) (v : Voxel) : Vec3VC :=
  let q := p3sub p s.bounds.1
  let inner := fun (col : List Voxel) =>
    modAt (fun cur => add_color_with_weight_check wmax m cur v) col (usizeCast q.2.2)
  let mid := fun (row : List (List Voxel)) => modAt inner row (usizeCast q.2.1)
  { s with field := modAt mid s.field (usizeCast q.1) }

/-- Embedding of Vec3VoxelCollection::has: an in-range cell with nonzero
weight. -/
def vec3_has (s : Vec3VC) (p : P3) : Bool :=
  let q := p3sub p s.bounds.1
  match s.field.get? (usizeCast q.1) with
  | none => false
  | some row =>
    match row.get? (usizeCast q.2.1) with
    | none => false
    | some col =>
      match col.get? (usizeCast q.2.2) with
      | none => false
      | some v => decide (v.weight ≠ 0)

/-- Overwrite the cell at a triple of indices, embedding the direct
indexed assignment of Vec3VoxelCollection::new. -/
def setAt3 (fld : List (List (List Voxel))) (x y z : Nat) (v : Voxel) :
    List (List (List Voxel)) :=
  modAt (fun row => modAt (fun col => modAt (fun _ => v) col z) row y) fld x

/-- A dense field of vacant voxels. -/
def emptyField (sx sy sz : Nat) : List (List (List Voxel)) :=
  List.replicate sx (List.replicate sy (List.replicate sz ⟨⟨0, 0, 0⟩, 0⟩))

/-- Embedding of Vec3VoxelCollection::new: allocate the vacant field sized
by the given or computed bounds, then write every listed cell in order,
later entries overwriting earlier ones. -/
def vec3_new (points : List (P3 × Voxel)) (bnds : Option (P3 × P3)) (offset : P3)
    (resolution : ℚ) : Vec3VC :=
  let b := bnds.getD (calc_bounds points)
  let sx := usizeCast (b.2.1 - b.1.1 + 1)
  let sy := usizeCast (b.2.2.1 - b.1.2.1 + 1)
  let sz := usizeCast (b.2.2.2 - b.1.2.2 + 1)
  let fld := points.foldl
    (fun f pv =>
      setAt3 f (usizeCast (pv.1.1 - b.1.1)) (usizeCast (pv.1.2.1 - b.1.2.1))
        (usizeCast (pv.1.2.2 - b.1.2.2)) pv.2)
    (emptyField sx sy sz)
  ⟨fld, b, offset, resolution⟩

/-- Embedding of Vec3VoxelCollection::into_vec: every grid cell, vacant or
occupied, with its absolute coordinate. -/
def vec3_into_vec (s : Vec3VC) : List (P3 × Voxel) :=
  let colCells := fun (x y : Nat) (col : List Voxel) =>
    col.enum.map (fun zr => (p3add (Int.ofNat x, Int.ofNat y, Int.ofNat zr.1) s.bounds.1, zr.2))
  let rowCells := fun (x : Nat) (row : List (List Voxel)) =>
    (row.enum.map (fun yr => colCells x yr.1 yr.2)).flatten
  (s.field.enum.map (fun xr => rowCells xr.1 xr.2)).flatten

/-- into_vec_with_offset for the dense store. -/
def vec3_into_vec_with_offset (s : Vec3VC) : List (P3 × Voxel) :=
  (vec3_into_vec s).map (fun pv => (p3add pv.1 s.offset, pv.2))

/-- Embedding of calc_bounds_from_2: the componentwise union of two
bound pairs. -/
def combineBounds (b1 b2 : P3 × P3) : P3 × P3 :=
  ((min b1.1.1 b2.1.1, min b1.1.2.1 b2.1.2.1, min b1.1.2.2 b2.1.2.2),
   (max b1.2.1 b2.2.1, max b1.2.2.1 b2.2.2.1, max b1.2.2.2 b2.2.2.2))

/-- Embedding of the trait-default VoxelCollection::merge for the dense
3-D store: reject differing resolutions, else rebuild from the
concatenated with-offset cell lists of both stores with the union bounds
and a zero offset. -/
def vec3_merge (a c : Vec3VC) : Except String Vec3VC :=
  if a.resolution = c.resolution then
    Except.ok (vec3_new (vec3_into_vec_with_offset a ++ vec3_into_vec_with_offset c)
      (some (combineBounds a.bounds c.bounds)) (0, 0, 0) a.resolution)
  else Except.error "Resolution is different"

/-- A dense store occupying only the origin cell. -/
def c4StoreA : Vec3VC :=
  vec3_new [((0, 0, 0), ⟨⟨1, 2, 3⟩, 1⟩)] none (0, 0, 0) 1

/-- A dense store whose bounding box covers the origin but whose only
occupied cell is at x = 1. -/
def c4StoreB : Vec3VC :=
  vec3_new [((1, 0, 0), ⟨⟨4, 5, 6⟩, 1⟩)] (some ((0, 0, 0), (1, 0, 0))) (0, 0, 0) 1

/-- C4: merging two equal-resolution dense stores loses the occupied
origin cell of the first input, because the second store's into_vec also
lists its vacant cells and Vec3VoxelCollection::new writes list entries in
order, the later vacant entry overwriting the earlier occupied one; a
resolution mismatch still errors. -/
theorem c4_merge_drops_occupied_cell :
    vec3_has c4StoreA (0, 0, 0) = true ∧
    vec3_has c4StoreB (1, 0, 0) = true ∧
    (vec3_merge c4StoreA c4StoreB).toOption.map (fun s => vec3_has s (0, 0, 0))
      = some false ∧
    (vec3_merge c4StoreA c4StoreB).toOption.map (fun s => vec3_has s (1, 0, 0))
      = some true ∧
    (vec3_merge c4StoreA { c4StoreB with resolution := 2 }).toOption = none := by
  decide

/-- The structural facts Vec3VoxelCollection::new establishes: bounds in
order, spans below the i32 range, and a field whose three dimensions match
the bounds. -/
def vec3WF (s : Vec3VC) : Prop :=
  s.bounds.1.1 ≤ s.bounds.2.1 ∧ s.bounds.1.2.1 ≤ s.bounds.2.2.1 ∧
    s.bounds.1.2.2 ≤ s.bounds.2.2.2 ∧
    s.bounds.2.1 - s.bounds.1.1 < 2 ^ 31 ∧
    s.bounds.2.2.1 - s.bounds.1.2.1 < 2 ^ 31 ∧
    s.bounds.2.2.2 - s.bounds.1.2.2 < 2 ^ 31 ∧
    s.field.length = (s.bounds.2.1 - s.bounds.1.1 + 1).toNat ∧
    (∀ row ∈ s.field, row.length = (s.bounds.2.2.1 - s.bounds.1.2.1 + 1).toNat ∧
      ∀ col ∈ row, col.length = (s.bounds.2.2.2 - s.bounds.1.2.2 + 1).toNat)

/-- A coordinate value representable in the 32-bit signed range used to
index the dense stores. -/
def coordSmall (z : Int) : Prop :=
  -(2 ^ 31) ≤ z ∧ z ≤ 2 ^ 31

/-- Membership of a coordinate in a bound pair, componentwise and
inclusive. -/
def vec3_in_bounds (b : P3 × P3) (p : P3) : Prop :=
  b.1.1 ≤ p.1 ∧ p.1 ≤ b.2.1 ∧ b.1.2.1 ≤ p.2.1 ∧ p.2.1 ≤ b.2.2.1 ∧
    b.1.2.2 ≤ p.2.2 ∧ p.2.2 ≤ b.2.2.2

instance (z : Int) : Decidable (coordSmall z) := by
  unfold coordSmall; infer_instance

instance (b : P3 × P3) (p : P3) : Decidable (vec3_in_bounds b p) := by
  unfold vec3_in_bounds; infer_instance

instance (s : Vec3VC) : Decidable (vec3WF s) := by
  unfold vec3WF; exact instDecidableAnd

/-- A coordinate difference that is negative or at least the dimension
wraps to an index at or beyond the dimension. -/
theorem usizeCast_out (z : Int) (d : Nat) (h : z < 0 ∨ (d : Int) ≤ z)
    (hlow : -(2 ^ 32) ≤ z) (hhigh : z < 2 ^ 64) (hd : d ≤ 2 ^ 31) :
    d ≤ usizeCast z := by
  unfold usizeCast
  rcases h with hneg | hge
  · have h2 : (z + 2 ^ 64 * 1) % 2 ^ 64 = z % 2 ^ 64 :=
      Int.add_mul_emod_self_left z (2 ^ 64) 1
    have h3 : (z + 2 ^ 64) % 2 ^ 64 = z + 2 ^ 64 :=
      Int.emod_eq_of_lt (by omega) (by omega)
    have h4 : z % 2 ^ 64 = z + 2 ^ 64 := by
      rw [← h3]
      rw [← h2]
      ring_nf
    rw [h4]
    omega
  · have h1 : z % 2 ^ 64 = z := Int.emod_eq_of_lt (by omega) (by omega)
    rw [h1]
    omega

/-- C6: inserting at any coordinate outside the construction-fixed bounds
of a dense 3-D store leaves the store unchanged: the wrapped index falls
outside the field on the violated axis, the get_mut chain yields nothing,
and no error is raised. -/
theorem c6_out_of_bounds_insert_unchanged (wmax m : Nat) (s : Vec3VC) (p : P3)
    (v : Voxel) (hwf : vec3WF s)
    (hp : coordSmall p.1 ∧ coordSmall p.2.1 ∧ coordSmall p.2.2)
    (hb : coordSmall s.bounds.1.1 ∧ coordSmall s.bounds.1.2.1 ∧ coordSmall s.bounds.1.2.2)
    (hout : ¬ vec3_in_bounds s.bounds p) :
    vec3_insert_one wmax m s p v = s := by
  obtain ⟨hx12, hy12, hz12, hdx, hdy, hdz, hlen, hrows⟩ := hwf
  obtain ⟨⟨hp1a, hp1b⟩, ⟨hp2a, hp2b⟩, ⟨hp3a, hp3b⟩⟩ := hp
  obtain ⟨⟨hb1a, hb1b⟩, ⟨hb2a, hb2b⟩, ⟨hb3a, hb3b⟩⟩ := hb
  have hcases : p.1 < s.bounds.1.1 ∨ s.bounds.2.1 < p.1 ∨ p.2.1 < s.bounds.1.2.1 ∨
      s.bounds.2.2.1 < p.2.1 ∨ p.2.2 < s.bounds.1.2.2 ∨ s.bounds.2.2.2 < p.2.2 := by
    unfold vec3_in_bounds at hout
    omega
  have hfield : (vec3_insert_one wmax m s p v).field = s.field := by
    show modAt _ s.field (usizeCast (p3sub p s.bounds.1).1) = s.field
    simp only [p3sub]
    rcases hcases with h | h | h | h | h | h
    · exact modAt_of_le _ _ _ (usizeCast_out (p.1 - s.bounds.1.1) s.field.length
        (Or.inl (by omega)) (by omega) (by omega) (by omega))
    · exact modAt_of_le _ _ _ (usizeCast_out (p.1 - s.bounds.1.1) s.field.length
        (Or.inr (by omega)) (by omega) (by omega) (by omega))
    · refine modAt_congr_id _ _ _ (fun row hrow => ?_)
      exact modAt_of_le _ _ _ (usizeCast_out (p.2.1 - s.bounds.1.2.1) row.length
        (Or.inl (by omega)) (by omega) (by omega)
        (by rw [(hrows row hrow).1]; omega))
    · refine modAt_congr_id _ _ _ (fun row hrow => ?_)
      exact modAt_of_le _ _ _ (usizeCast_out (p.2.1 - s.bounds.1.2.1) row.length
        (Or.inr (by rw [(hrows row hrow).1]; omega)) (by omega) (by omega)
        (by rw [(hrows row hrow).1]; omega))
    · refine modAt_congr_id _ _ _ (fun row hrow => ?_)
      refine modAt_congr_id _ _ _ (fun col hcol => ?_)
      have hcl := (hrows row hrow).2 col hcol
      exact modAt_of_le _ _ _ (usizeCast_out (p.2.2 - s.bounds.1.2.2) col.length
        (Or.inl (by omega)) (by omega) (by omega) (by rw [hcl]; omega))
    · refine modAt_congr_id _ _ _ (fun row hrow => ?_)
      refine modAt_congr_id _ _ _ (fun col hcol => ?_)
      have hcl := (hrows row hrow).2 col hcol
      exact modAt_of_le _ _ _ (usizeCast_out (p.2.2 - s.bounds.1.2.2) col.length
        (Or.inr (by rw [hcl]; omega)) (by omega) (by omega) (by rw [hcl]; omega))
  calc vec3_insert_one wmax m s p v
      = { s with field := (vec3_insert_one wmax m s p v).field } := rfl
    _ = { s with field := s.field } := by rw [hfield]
    _ = s := rfl

/-- A one-cell dense store over the single coordinate at the origin. -/
def c6Store : Vec3VC :=
  ⟨[[[⟨⟨7, 8, 9⟩, 1⟩]]], ((0, 0, 0), (0, 0, 0)), (0, 0, 0), 1⟩

/-- Witness for C6: inserting at x = 5, outside the one-cell bounds,
changes nothing. -/
theorem c6_out_of_bounds_insert_unchanged_witness :
    vec3WF c6Store ∧
    (coordSmall (5 : Int) ∧ coordSmall 0 ∧ coordSmall 0) ∧
    (coordSmall c6Store.bounds.1.1 ∧ coordSmall c6Store.bounds.1.2.1 ∧
      coordSmall c6Store.bounds.1.2.2) ∧
    ¬ vec3_in_bounds c6Store.bounds (5, 0, 0) ∧
    vec3_insert_one 255 65536 c6Store (5, 0, 0) ⟨⟨1, 1, 1⟩, 1⟩ = c6Store :=
  ⟨by decide, by decide, by decide, by decide,
    c6_out_of_bounds_insert_unchanged 255 65536 c6Store (5, 0, 0) ⟨⟨1, 1, 1⟩, 1⟩
      (by decide) (by decide) (by decide) (by decide)⟩

/-- Embedding of Vec2VoxelCollection: a dense planar grid holding one
height and voxel per cell, with a separately cached z range. -/
structure Vec2VC where
  field : List (List (Int × Voxel))
  boundsXY : (Int × Int) × (Int × Int)
  boundsZ : Option (Int × Int)
  offset : P3
  resolution : ℚ
deriving DecidableEq

/-- The x index Vec2VoxelCollection::insert_one computes. -/
def vec2_ix (s : Vec2VC) (p : P3) : Nat :=
  usizeCast (p.1 - s.boundsXY.1.1)

/-- The y index Vec2VoxelCollection::insert_one computes. -/
def vec2_iy (s : Vec2VC) (p : P3) : Nat :=
  usizeCast (p.2.1 - s.boundsXY.1.2)

/-- Embedding of Vec2VoxelCollection::insert_one: with a stored pair at the
planar cell, a differing height replaces the pair and returns at once,
while a matching height merges the colors and then drops the z cache; an
out-of-range planar index also drops the z cache. -/
def vec2_insert_one (wmax m : Nat) (s : Vec2VC) (p : P3) (v : Voxel) : Vec2VC :=
  match s.field.get? (vec2_ix s p) with
  | some row =>
    match row.get? (vec2_iy s p) with
    | some hv =>
      if hv.1 = p.2.2 then
        { s with
          field := modAt
            (fun r => modAt
              (fun cur => (cur.1, add_color_with_weight_check wmax m cur.2 v))
              r (vec2_iy s p))
            s.field (vec2_ix s p)
          boundsZ := none }
      else
        { s with
          field := modAt
            (fun r => modAt (fun _ => (p.2.2, v)) r (vec2_iy s p))
            s.field (vec2_ix s p) }
    | none => { s with boundsZ := none }
  | none => { s with boundsZ := none }

/-- Embedding of HMap2DVoxelCollection: a hash map from the planar cell to
one height and voxel. -/
structure HMap2D where
  field : List ((Int × Int) × (Int × Voxel))
  bounds : Option (P3 × P3)
  offset : P3
  resolution : ℚ
deriving DecidableEq

/-- Embedding of HMap2DVoxelCollection::insert_one: the entry call merges
only when the stored height equals the inserted one and otherwise leaves
the stored pair as it is; an absent cell gets the new pair; the bounds
cache is dropped. -/
def hmap2d_insert_one (wmax m : Nat) (s : HMap2D) (p : P3) (v : Voxel) : HMap2D :=
  { s with
    field := alInsertWith
      (fun hv =>
        if hv.1 = p.2.2 then (hv.1, add_color_with_weight_check wmax m hv.2 v) else hv)
      (p.2.2, v) s.field (p.1, p.2.1)
    bounds := none }

/-- A planar hash store with one cell at height zero. -/
def c5HStore : HMap2D :=
  ⟨[((0, 0), (0, ⟨⟨1, 1, 1⟩, 1⟩))], some ((0, 0, 0), (0, 0, 0)), (0, 0, 0), 1⟩

/-- A one-cell dense planar store at height zero with a cached z range. -/
def c5VStore : Vec2VC :=
  ⟨[[(0, ⟨⟨1, 1, 1⟩, 1⟩)]], ((0, 0), (0, 0)), some (0, 0), (0, 0, 0), 1⟩

/-- Counterexample to C5: inserting at the occupied planar cell with the
differing height one, the 2-D hash store does not replace the stored pair
with the inserted one, and the dense 2-D store does not invalidate its
cached z range. -/
theorem c5_counterexample :
    alGet (hmap2d_insert_one 255 65536 c5HStore (0, 0, 1) ⟨⟨9, 9, 9⟩, 1⟩).field (0, 0)
      ≠ some (1, ⟨⟨9, 9, 9⟩, 1⟩) ∧
    (vec2_insert_one 255 65536 c5VStore (0, 0, 1) ⟨⟨9, 9, 9⟩, 1⟩).boundsZ ≠ none := by
  decide

/-- Reading the position a modAt touched applies the function there. -/
theorem get?_modAt_self {α : Type} (f : α → α) :
    ∀ (l : List α) (n : Nat), (modAt f l n).get? n = (l.get? n).map f := by
  intro l
  induction l with
  | nil => intro n; rfl
  | cons a t ih =>
    intro n
    match n with
    | 0 => rfl
    | n + 1 => exact ih n

/-- C5 as the code behaves: for the dense 2-D store a differing height
replaces the stored pair but leaves the cached z range untouched, while
for the 2-D hash store a differing height leaves the stored pair
untouched and drops the bounds cache. -/
theorem c5_two_d_insert_differing_height (wmax m : Nat) (s : Vec2VC) (t : HMap2D)
    (p : P3) (v : Voxel) (row : List (Int × Voxel)) (hv hv2 : Int × Voxel)
    (hrow : s.field.get? (vec2_ix s p) = some row)
    (hcell : row.get? (vec2_iy s p) = some hv)
    (hne : ¬ hv.1 = p.2.2)
    (ht : alGet t.field (p.1, p.2.1) = some hv2)
    (hne2 : ¬ hv2.1 = p.2.2) :
    ((vec2_insert_one wmax m s p v).field.get? (vec2_ix s p)).bind
        (fun r => r.get? (vec2_iy s p)) = some (p.2.2, v) ∧
    (vec2_insert_one wmax m s p v).boundsZ = s.boundsZ ∧
    alGet (hmap2d_insert_one wmax m t p v).field (p.1, p.2.1) = some hv2 ∧
    (hmap2d_insert_one wmax m t p v).bounds = none := by
  have hres : vec2_insert_one wmax m s p v
      = { s with
          field := modAt
            (fun r => modAt (fun _ => (p.2.2, v)) r (vec2_iy s p))
            s.field (vec2_ix s p) } := by
    simp only [vec2_insert_one, hrow, hcell, if_neg hne]
  refine ⟨?_, ?_, ?_, ?_⟩
  · rw [hres]
    have h1 : (modAt (fun r => modAt (fun _ => (p.2.2, v)) r (vec2_iy s p))
          s.field (vec2_ix s p)).get? (vec2_ix s p)
        = some (modAt (fun _ => (p.2.2, v)) row (vec2_iy s p)) := by
      rw [get?_modAt_self, hrow]
      rfl
    have h2 : (modAt (fun _ => ((p.2.2 : Int), v)) row (vec2_iy s p)).get? (vec2_iy s p)
        = some (p.2.2, v) := by
      rw [get?_modAt_self, hcell]
      rfl
    rw [h1]
    exact h2
  · rw [hres]
  · rw [hmap2d_insert_one]
    simp only [alGet_alInsertWith, if_pos rfl, ht]
    simp [hne2]
  · rfl

/-- Witness for C5 on the concrete one-cell stores at height zero and an
insertion at height one. -/
theorem c5_two_d_insert_differing_height_witness :
    c5VStore.field.get? (vec2_ix c5VStore (0, 0, 1)) = some [(0, ⟨⟨1, 1, 1⟩, 1⟩)] ∧
    ([(0, ⟨⟨1, 1, 1⟩, 1⟩)] : List (Int × Voxel)).get? (vec2_iy c5VStore (0, 0, 1))
      = some (0, ⟨⟨1, 1, 1⟩, 1⟩) ∧
    ¬ ((0, ⟨⟨1, 1, 1⟩, 1⟩) : Int × Voxel).1 = ((0, 0, 1) : P3).2.2 ∧
    alGet c5HStore.field ((0 : Int), (0 : Int)) = some (0, ⟨⟨1, 1, 1⟩, 1⟩) ∧
    (((vec2_insert_one 255 65536 c5VStore (0, 0, 1) ⟨⟨9, 9, 9⟩, 1⟩).field.get?
          (vec2_ix c5VStore (0, 0, 1))).bind
        (fun r => r.get? (vec2_iy c5VStore (0, 0, 1))) = some (((0, 0, 1) : P3).2.2, ⟨⟨9, 9, 9⟩, 1⟩) ∧
      (vec2_insert_one 255 65536 c5VStore (0, 0, 1) ⟨⟨9, 9, 9⟩, 1⟩).boundsZ = c5VStore.boundsZ ∧
      alGet (hmap2d_insert_one 255 65536 c5HStore (0, 0, 1) ⟨⟨9, 9, 9⟩, 1⟩).field
          (((0, 0, 1) : P3).1, ((0, 0, 1) : P3).2.1) = some (0, ⟨⟨1, 1, 1⟩, 1⟩) ∧
      (hmap2d_insert_one 255 65536 c5HStore (0, 0, 1) ⟨⟨9, 9, 9⟩, 1⟩).bounds = none) :=
  ⟨by decide, by decide, by decide, by decide,
    c5_two_d_insert_differing_height 255 65536 c5VStore c5HStore (0, 0, 1) ⟨⟨9, 9, 9⟩, 1⟩
      [(0, ⟨⟨1, 1, 1⟩, 1⟩)] (0, ⟨⟨1, 1, 1⟩, 1⟩) (0, ⟨⟨1, 1, 1⟩, 1⟩)
      (by decide) (by decide) (by decide) (by decide) (by decide)⟩

/-- Embedding of the per-channel LAS color flattening of
voxelize_from_jpr_las (voxelizer.rs) and from_jpr_las (tiler.rs): the
16-bit channel is divided by u8::MAX as u16, that is by 255, and the
quotient is cast to u8, wrapping modulo 256. -/
def las_flatten_channel (c : Nat) : Nat :=
  (c / 255) % 256

/-- The color both LAS readers produce for a point: a missing color record
defaults to (0, 0, 0) before the flattening. -/
def las_point_color (c : Option (Nat × Nat × Nat)) : Nat × Nat × Nat :=
  let col := c.getD (0, 0, 0)
  (las_flatten_channel col.1, las_flatten_channel col.2.1, las_flatten_channel col.2.2)

/-- Modelled from the spec wording of claim C7: the reader flattens each
16-bit channel by channel / 256 (integer division), and a missing color
record gives (0, 0, 0). Stated for comparison with the source embedding. -/
def las_point_color_spec (c : Option (Nat × Nat × Nat)) : Nat × Nat × Nat :=
  let col := c.getD (0, 0, 0)
  (col.1 / 256, col.2.1 / 256, col.2.2 / 256)

/-- Counterexample to C7: at channel value 255 the code yields 255 / 255
equal to 1 while the claimed flattening yields 255 / 256 equal to 0. -/
theorem c7_counterexample :
    las_point_color (some (255, 0, 0)) ≠ las_point_color_spec (some (255, 0, 0)) := by
  decide

/-- C7 as the code behaves: each channel is divided by 255 and truncated
to eight bits, which equals the plain quotient for channels below 65280
and wraps above it (65535 maps to 1); a missing color record still gives
(0, 0, 0). -/
theorem c7_las_flattens_by_255 :
    (∀ c : Nat, c < 65280 → las_flatten_channel c = c / 255) ∧
    las_flatten_channel 65535 = 1 ∧
    las_point_color none = (0, 0, 0) ∧
    (∀ r g b : Nat, las_point_color (some (r, g, b))
      = (las_flatten_channel r, las_flatten_channel g, las_flatten_channel b)) := by
  refine ⟨?_, by decide, rfl, fun r g b => rfl⟩
  intro c hc
  have h : c / 255 < 256 := by omega
  exact Nat.mod_eq_of_lt h

/-- Witness for C7 at channel value 1000. -/
theorem c7_las_flattens_by_255_witness :
    1000 < 65280 ∧ las_flatten_channel 1000 = 1000 / 255 :=
  ⟨by decide, c7_las_flattens_by_255.1 1000 (by decide)⟩

/-- Embedding of GlbGenPrivateMethod::round_up_to_mul_of_four. -/
def round_up_to_mul_of_four (n : Nat) : Nat :=
  let r := n % 4
  if r = 0 then n else n + (4 - r)

/-- Byte size of a Vertex, three f32 components. -/
def vertexByteSize : Nat := 12

/-- Byte size of a UV pair, two f32 components. -/
def uvByteSize : Nat := 8

/-- Byte size of a u32 index. -/
def indexByteSize : Nat := 4

/-- The (byte offset, byte length) pairs of the buffer views pushed by
GlbGen::from_voxel_mesh, as functions of the vertex count and the
per-color index run lengths: the vertex view at offset zero, then the
index view holding every padded run. -/
def glb_views_vertex_color (nv : Nat) (runs : List Nat) : List (Nat × Nat) :=
  [(0, round_up_to_mul_of_four nv * vertexByteSize),
   (round_up_to_mul_of_four nv * vertexByteSize,
    (runs.map (fun n => round_up_to_mul_of_four n * indexByteSize)).sum)]

/-- The (byte offset, byte length) pairs of the buffer views pushed by
GlbGen::from_voxel_mesh_with_texture_projected_z: vertex, index and UV
views with padded lengths, and, when an image buffer is supplied, a
texture view whose length is the raw image byte count. -/
def glb_views_textured (nv ni : Nat) (texLen : Option Nat) : List (Nat × Nat) :=
  let pvl := round_up_to_mul_of_four nv * vertexByteSize
  let pil := round_up_to_mul_of_four ni * indexByteSize
  let puv := round_up_to_mul_of_four nv * uvByteSize
  [(0, pvl), (pvl, pil), (pvl + pil, puv)] ++
    (match texLen with
     | some t => [(pvl + pil + puv, t)]
     | none => [])

/-- Counterexample to C8: with a five-byte texture image, the texture
buffer view of the z-projected writer has byte length 5, which is not a
multiple of 4. -/
theorem c8_counterexample :
    (96, 5) ∈ glb_views_textured 1 1 (some 5) ∧ ¬ (5 : Nat) % 4 = 0 := by
  decide

/-- Rounding up to a multiple of four yields a multiple of four. -/
theorem round_up_mod_four (n : Nat) : round_up_to_mul_of_four n % 4 = 0 := by
  unfold round_up_to_mul_of_four
  by_cases h : n % 4 = 0
  · simp [h]
  · rw [if_neg h]
    omega

/-- A sum of multiples of four is a multiple of four. -/
theorem sum_mod_four (l : List Nat) (h : ∀ x ∈ l, x % 4 = 0) : l.sum % 4 = 0 := by
  induction l with
  | nil => rfl
  | cons a t ih =>
    have ha := h a (List.mem_cons_self a t)
    have ht := ih (fun x hx => h x (List.mem_cons_of_mem a hx))
    simp only [List.sum_cons]
    omega

/-- C8 as the code behaves: every buffer view of both writers starts at an
offset that is a multiple of 4; every view of the vertex-color writer and
the vertex, index and UV views of the textured writer have lengths that
are multiples of 4, but the texture-image view's length is the raw image
byte count, not padded. -/
theorem c8_glb_view_alignment :
    (∀ (nv : Nat) (runs : List Nat), ∀ ov ∈ glb_views_vertex_color nv runs,
      ov.1 % 4 = 0 ∧ ov.2 % 4 = 0) ∧
    (∀ (nv ni : Nat) (texLen : Option Nat),
      (∀ ov ∈ glb_views_textured nv ni texLen, ov.1 % 4 = 0) ∧
      (∀ ov ∈ (glb_views_textured nv ni texLen).take 3, ov.2 % 4 = 0) ∧
      (∀ t, texLen = some t →
        (round_up_to_mul_of_four nv * vertexByteSize
            + round_up_to_mul_of_four ni * indexByteSize
            + round_up_to_mul_of_four nv * uvByteSize, t)
          ∈ glb_views_textured nv ni texLen)) := by
  have hv12 : ∀ n : Nat, round_up_to_mul_of_four n * vertexByteSize % 4 = 0 := by
    intro n
    have := round_up_mod_four n
    unfold vertexByteSize
    omega
  have hv4 : ∀ n : Nat, round_up_to_mul_of_four n * indexByteSize % 4 = 0 := by
    intro n
    have := round_up_mod_four n
    unfold indexByteSize
    omega
  have hv8 : ∀ n : Nat, round_up_to_mul_of_four n * uvByteSize % 4 = 0 := by
    intro n
    have := round_up_mod_four n
    unfold uvByteSize
    omega
  constructor
  · intro nv runs ov hov
    have hsum : ((runs.map (fun n => round_up_to_mul_of_four n * indexByteSize)).sum) % 4
        = 0 := by
      refine sum_mod_four _ (fun x hx => ?_)
      obtain ⟨n, _, hn⟩ := List.mem_map.mp hx
      exact hn ▸ hv4 n
    rcases List.mem_cons.mp hov with h | h
    · subst h; exact ⟨by omega, hv12 nv⟩
    · rcases List.mem_cons.mp h with h | h
      · subst h; exact ⟨hv12 nv, hsum⟩
      · exact absurd h (List.not_mem_nil ov)
  · intro nv ni texLen
    rcases texLen with _ | t
    · refine ⟨?_, ?_, ?_⟩
      · intro ov hov
        simp only [glb_views_textured, List.append_nil, List.mem_cons,
          List.not_mem_nil, or_false] at hov
        rcases hov with h | h | h
        · subst h; omega
        · subst h; exact hv12 nv
        · subst h
          have h1 := hv12 nv
          have h2 := hv4 ni
          omega
      · intro ov hov
        simp only [glb_views_textured, List.append_nil, List.take,
          List.mem_cons, List.not_mem_nil, or_false] at hov
        rcases hov with h | h | h
        · subst h; exact hv12 nv
        · subst h; exact hv4 ni
        · subst h; exact hv8 nv
      · intro t ht
        exact absurd ht (by simp)
    · refine ⟨?_, ?_, ?_⟩
      · intro ov hov
        simp only [glb_views_textured, List.mem_append, List.mem_cons,
          List.not_mem_nil, or_false] at hov
        rcases hov with (h | h | h) | h
        · subst h; omega
        · subst h; exact hv12 nv
        · subst h
          have h1 := hv12 nv
          have h2 := hv4 ni
          omega
        · subst h
          have h1 := hv12 nv
          have h2 := hv4 ni
          have h3 := hv8 nv
          omega
      · intro ov hov
        simp only [glb_views_textured, List.cons_append, List.nil_append,
          List.take, List.mem_cons, List.not_mem_nil, or_false] at hov
        rcases hov with h | h | h
        · subst h; exact hv12 nv
        · subst h; exact hv4 ni
        · subst h; exact hv8 nv
      · intro t2 ht
        have ht2 : t = t2 := by injection ht
        subst ht2
        simp [glb_views_textured]

/-- Witness for C8 with one vertex, one index and a five-byte image. -/
theorem c8_glb_view_alignment_witness :
    (some 5 = some 5) ∧ (96, 5) ∈ glb_views_textured 1 1 (some 5) :=
  ⟨rfl, (c8_glb_view_alignment.2 1 1 (some 5)).2.2 5 rfl⟩

/-- Embedding of PointCloud: the flat sequence store, holding the list of
cells, the optional cached bounds, the offset and the resolution. -/
structure PC where
  field : List (P3 × Voxel)
  bounds : Option (P3 × P3)
  offset : P3
  resolution : ℚ
deriving DecidableEq

/-- into_vec_with_offset for the flat store: the offset is added to every
stored coordinate. -/
def pc_into_vec_with_offset (s : PC) : List (P3 × Voxel) :=
  s.field.map (fun pv => (p3add pv.1 s.offset, pv.2))

/-- Embedding of the trait-default VoxelCollection::merge for the flat
store: reject differing resolutions, else rebuild from both with-offset
cell lists, the union bounds when both are cached, and a zero offset. -/
def pc_merge (a c : PC) : Except String PC :=
  if a.resolution = c.resolution then
    Except.ok
      { field := pc_into_vec_with_offset a ++ pc_into_vec_with_offset c
        bounds :=
          match a.bounds, c.bounds with
          | some ba, some bc => some (combineBounds ba bc)
          | _, _ => none
        offset := (0, 0, 0)
        resolution := a.resolution }
  else Except.error "Resolution is different"

/-- C9: a successful merge returns a store whose offset field is the zero
point, with both inputs' offsets already added into the stored coordinates
by the with-offset iteration; the dense-store merge likewise zeroes the
offset. -/
theorem c9_merge_zeroes_offset (a c M : PC) (h : pc_merge a c = Except.ok M) :
    M.offset = (0, 0, 0) ∧
    M.field = a.field.map (fun pv => (p3add pv.1 a.offset, pv.2))
      ++ c.field.map (fun pv => (p3add pv.1 c.offset, pv.2)) ∧
    (∀ (x y N : Vec3VC), vec3_merge x y = Except.ok N → N.offset = (0, 0, 0)) := by
  refine ⟨?_, ?_, ?_⟩
  · rw [pc_merge] at h
    by_cases hres : a.resolution = c.resolution
    · rw [if_pos hres] at h
      cases h
      rfl
    · rw [if_neg hres] at h
      exact absurd h (by simp)
  · rw [pc_merge] at h
    by_cases hres : a.resolution = c.resolution
    · rw [if_pos hres] at h
      cases h
      rfl
    · rw [if_neg hres] at h
      exact absurd h (by simp)
  · intro x y N hN
    rw [vec3_merge] at hN
    by_cases hres : x.resolution = y.resolution
    · rw [if_pos hres] at hN
      cases hN
      rfl
    · rw [if_neg hres] at hN
      exact absurd hN (by simp)

/-- A flat store with one cell and a nonzero offset. -/
def c9StoreA : PC :=
  ⟨[((1, 2, 3), ⟨⟨1, 1, 1⟩, 1⟩)], none, (10, 0, 0), 1⟩

/-- Another flat store with one cell and a different nonzero offset. -/
def c9StoreB : PC :=
  ⟨[((4, 5, 6), ⟨⟨2, 2, 2⟩, 1⟩)], none, (0, 20, 0), 1⟩

/-- Witness for C9 on two concrete one-cell stores with nonzero offsets. -/
theorem c9_merge_zeroes_offset_witness :
    pc_merge c9StoreA c9StoreB
      = Except.ok
          ⟨[((11, 2, 3), ⟨⟨1, 1, 1⟩, 1⟩), ((4, 25, 6), ⟨⟨2, 2, 2⟩, 1⟩)], none, (0, 0, 0), 1⟩ ∧
    (⟨[((11, 2, 3), ⟨⟨1, 1, 1⟩, 1⟩), ((4, 25, 6), ⟨⟨2, 2, 2⟩, 1⟩)], none, (0, 0, 0), 1⟩
        : PC).offset = (0, 0, 0) :=
  ⟨by rfl,
    (c9_merge_zeroes_offset c9StoreA c9StoreB
      ⟨[((11, 2, 3), ⟨⟨1, 1, 1⟩, 1⟩), ((4, 25, 6), ⟨⟨2, 2, 2⟩, 1⟩)], none, (0, 0, 0), 1⟩
      (by rfl)).1⟩

end VoxelTiler
